import Mathlib

/-!
Shallow embedding of the numerical utilities of `ssmdm/misc.py` over exact
rational arithmetic, together with theorems settling the specification claims
about the Click Generator, the Factor Analysis Fitter, the Smoother, the PSTH
Builder and the R squared Evaluator.

Conventions of the embedding:
* Python floats are modelled as `ℚ`; the float literals 1e-3, 1e-7 and 0.01 of
  the source become the exact rationals 1/1000, 1/10^7 and 1/100.
* Calls into external random samplers (`npr.poisson`, `npr.uniform`,
  `np.random.randn`) are modelled by passing the drawn values in as arguments;
  a predicate describing the support of the draws replaces the distribution.
* A call of a name the module never binds (`trange` at misc.py line 70; the
  tqdm import is absent) raises NameError, modelled by a `none` result.
* A numpy expression that produces NaN (mean of an empty slice, 0.0/0.0) is
  modelled by `Option.none`.
* A numpy operation that raises (out of bounds indexing on an empty selection)
  is modelled by an `Option.none` result of the surrounding function.
-/

/-! ## Click Generator: `generate_clicks`, `generate_clicks_D` (misc.py 8-47) -/

/-- Embedding of `np.arange(start, stop, step)` over exact rationals: the
result has `⌈(stop - start) / step⌉` entries and entry `i` is
`start + i * step`. -/
def aRange (start stop step : ℚ) : List ℚ :=
  (List.range (⌈(stop - start) / step⌉).toNat).map fun i : ℕ => start + (i : ℚ) * step

/-- Bin membership test of `np.histogram`: bin `i` is the half open interval
between edges `i` and `i+1`, except for the last bin, which also includes its
right edge. -/
def binPred (edges : List ℚ) (i : ℕ) (x : ℚ) : Bool :=
  decide (edges.getD i 0 ≤ x) &&
    (if i + 2 = edges.length then decide (x ≤ edges.getD (i + 1) 0)
     else decide (x < edges.getD (i + 1) 0))

/-- Embedding of `np.histogram(vals, edges)[0]`: the count of the values lying
in each of the `edges.length - 1` bins. -/
def histogram (vals edges : List ℚ) : List ℕ :=
  (List.range (edges.length - 1)).map fun i => vals.countP (binPred edges i)

/-- Embedding of `np.sort` on a vector of rationals. -/
def sortQ (l : List ℚ) : List ℚ := List.insertionSort (· ≤ ·) l

/-- Support of the random draws feeding `generate_clicks`: `npr.uniform(0, T)`
draws lie in the half open interval from 0 to T, and a Poisson draw with mean
`rate * T = 0` is almost surely 0, in which case the list of click times is
empty.  This predicate models the external numpy samplers, not repository
code. -/
def poissonUniformDraw (rate T : ℚ) (times : List ℚ) : Prop :=
  (∀ x ∈ times, 0 ≤ x ∧ x < T) ∧ (rate * T = 0 → times = [])

/-- Embedding of `generate_clicks` (misc.py lines 8-26).  The Poisson and
uniform draws of the source are passed in as the lists `timesR`, `timesL` of
click times (their lengths are the Poisson draws `num_r` and `num_l`); the
deterministic remainder, sorting followed by histogram binning against the
edge vector `np.arange(0.0, T + dt, dt)`, is computed exactly.  The rate
arguments only parameterize the random draws and are otherwise unused, as in
the source. -/
def generate_clicks (T dt rate_r rate_l : ℚ) (timesR timesL : List ℚ) :
    List ℕ × List ℕ :=
  let click_time_r := sortQ timesR
  let click_time_l := sortQ timesL
  let edges := aRange 0 (T + dt) dt
  (histogram click_time_r edges, histogram click_time_l edges)

/-- Embedding of `generate_clicks_D` (misc.py lines 28-47): one sorted and
binned click train per Poisson source, the uniform draws being passed in as
`times` (one list of click times per rate). -/
def generate_clicks_D (rates : List ℚ) (T dt : ℚ) (times : List (List ℚ)) :
    List (List ℕ) :=
  times.map fun ts => histogram (sortQ ts) (aRange 0 (T + dt) dt)

/-! ## Smoother: `smooth` (misc.py 98-111) -/

/-- Embedding of `np.mean` on a vector; `none` models the NaN numpy produces
on an empty slice. -/
def npMean (l : List ℚ) : Option ℚ :=
  if l.isEmpty then none else some (l.sum / l.length)

/-- Embedding of `smooth` (misc.py lines 98-111) at time index `t` and feature
index `n` of a series with `T` rows.  `win = int((window_size - 1) / 2)` and
the averaging window is `np.arange(np.maximum(t - win, 0), np.minimum(t + win,
T - 1))`; truncated natural subtraction `t - win` coincides with
`max(t - win, 0)`. -/
def smooth (xs : ℕ → ℕ → ℚ) (T : ℕ) (window_size : ℕ) (t n : ℕ) : Option ℚ :=
  let win := (window_size - 1) / 2
  let lo := t - win
  let smooth_window := List.range' lo (min (t + win) (T - 1) - lo)
  npMean (smooth_window.map fun i => xs i n)

/-! ## PSTH Builder: the trial partition of `plot_psths` (misc.py 125-166) -/

/-- Evidence strengths of `plot_psths` (misc.py lines 135-139): per trial, the
sum of all input entries for one channel, and the summed difference of channel
0 and channel 1 for two channels.  A trial is a list of time steps, each a
list of channel values. -/
def uSums (ch : ℕ) (inputs : List (List (List ℚ))) : List ℚ :=
  if ch = 1 then inputs.map fun u => (u.map List.sum).sum
  else inputs.map fun u => (u.map fun row => row.getD 0 0 - row.getD 1 0).sum

/-- Embedding of `np.argsort`: the list of positions of `l` sorted by their
values (ties resolved stably). -/
def argsort (l : List ℚ) : List ℕ :=
  (((List.range l.length).map fun i => (l.getD i 0, i)).insertionSort
    fun a b => a.1 ≤ b.1).map Prod.snd

/-- The vector `u_sorted = u_sums[idx_sort]` of `plot_psths` (misc.py line
148): the evidence strengths rearranged in sorted order. -/
def uSorted (us : List ℚ) : List ℚ := (argsort us).map fun j => us.getD j 0

/-- Embedding of `np.array_split(l, n)`: `l.length % n` parts of size
`l.length / n + 1` followed by parts of size `l.length / n`. -/
def arraySplit (l : List ℕ) (n : ℕ) : List (List ℕ) :=
  let q := l.length / n
  let r := l.length % n
  (List.range n).map fun i =>
    (l.drop (i * q + min i r)).take (q + if i < r then 1 else 0)

/-- Embedding of the trial partition computed by `plot_psths` (misc.py lines
135-159), up to the list `all_idx` of the seven coherence bins of trial
indices; the subsequent averaging and matplotlib rendering are not part of the
partition claims.  The source asserts that the channel count is 1 or 2
(`none` otherwise), and the scans
`np.where(u_sorted < 0)[0][-1]` and `np.where(u_sorted > 0)[0][0]` raise an
IndexError when their selection is empty, which is modelled by `none`. -/
def plot_psths_all_idx (ch : ℕ) (inputs : List (List (List ℚ))) :
    Option (List (List ℕ)) :=
  if ch = 1 ∨ ch = 2 then
    (((List.range (uSorted (uSums ch inputs)).length).filter
        fun p => decide ((uSorted (uSums ch inputs)).getD p 0 < 0)).getLast?).bind
      fun u_below_0 =>
        (((List.range (uSorted (uSums ch inputs)).length).filter
            fun p => decide (0 < (uSorted (uSums ch inputs)).getD p 0)).head?).map
          fun u_above_0 =>
            arraySplit ((argsort (uSums ch inputs)).take u_below_0) 3 ++
              [((List.range (uSorted (uSums ch inputs)).length).filter
                  fun p =>
                    decide (|(uSorted (uSums ch inputs)).getD p 0| < 1 / 1000)).map
                fun p => (argsort (uSums ch inputs)).getD p 0] ++
              arraySplit ((argsort (uSums ch inputs)).drop u_above_0) 3
  else none

/-! ## R squared Evaluator: `compute_r2` (misc.py 192-220) -/

/-- The scalar `np.mean(true_psth_mean)` of `compute_r2`: numpy stacks the
nonempty bins (they share one length in every well formed PSTH) and takes the
mean of all entries, which equals the grand mean modelled here. -/
def grandMean (bins : List (List ℚ)) : ℚ :=
  (bins.map List.sum).sum / ((bins.map List.length).sum : ℕ)

/-- The accumulated numerator `r2_num` of one loop body of `compute_r2`
(misc.py lines 212-215): summed squared errors between paired true and
simulated bins over the bins of positive length.  Bins are paired
positionally (the source indexes both PSTHs by `j`, defined when the bin
counts agree, as the claims assume). -/
def r2Num (true_psth sim_psth : List (List ℚ)) : ℚ :=
  ((true_psth.zip sim_psth).map fun p =>
    if 0 < p.1.length then ((p.1.zip p.2).map fun q => (q.1 - q.2) ^ 2).sum
    else 0).sum

/-- The accumulated denominator `r2_den` of `compute_r2`: summed squared
deviations of the true bins from `mean_PSTH`, over the bins of positive
length. -/
def r2Den (true_psth : List (List ℚ)) : ℚ :=
  (true_psth.map fun b =>
    if 0 < b.length then
      (b.map fun x =>
        (grandMean (true_psth.filter fun c => decide (0 < c.length)) - x) ^ 2).sum
    else 0).sum

/-- Embedding of one loop body of `compute_r2` (misc.py lines 200-218), the R
squared of one neuron: `1 - r2_num / r2_den`, where `none` models the non
finite float the source yields when the denominator vanishes (`0.0 / 0.0` is
NaN). -/
def r2_neuron (true_psth sim_psth : List (List ℚ)) : Option ℚ :=
  if r2Den true_psth = 0 then none
  else some (1 - r2Num true_psth sim_psth / r2Den true_psth)

/-- Embedding of `compute_r2` (misc.py lines 192-220).  The source asserts
that the two collections have the same number of neurons (`none` models the
assertion failure), then computes one R squared per neuron. -/
def compute_r2 (true_psths sim_psths : List (List (List ℚ))) :
    Option (List (Option ℚ)) :=
  if true_psths.length = sim_psths.length then
    some ((true_psths.zip sim_psths).map fun p => r2_neuron p.1 p.2)
  else none

/-- Non degeneracy of a true PSTH for one neuron, as used by the R squared
claim: some nonempty bin holds an entry that deviates from the grand mean of
the nonempty bins. -/
def nondegenerate (tp : List (List ℚ)) : Prop :=
  ∃ b ∈ tp, b ≠ [] ∧
    ∃ x ∈ b, x ≠ grandMean (tp.filter fun c => decide (0 < c.length))

/-! ## Factor Analysis Fitter: `factor_analysis` (misc.py 49-96) -/

/-- The noise covariance as initialized by `psi = np.eye(N)` at misc.py line
67: the identity matrix (off diagonal entries zero), the last value psi takes
before the name lookup failure at line 70. -/
def fa_psi_init (N : ℕ) : Matrix (Fin N) (Fin N) ℚ := 1

/-- Embedding of `factor_analysis` (misc.py lines 49-96).  Lines 54-67 pool
the input sequences, center them by the pooled mean, and initialize `Cfa`
(the `np.random.randn(N, D)` draw, passed in as `Cfa0`) and `psi = np.eye(N)`.
Line 70 then evaluates `pbar = trange(num_iters)`, but the module imports
only numpy, numpy.random, matplotlib.pyplot, itertools and
scipy.stats.multivariate_normal: `trange` is bound nowhere, so every call
raises NameError there, before the first EM iteration.  The EM loop of lines
72-91 and the return of line 96 are unreachable, and no loading matrix,
latent estimate, log likelihood trace or noise covariance is ever returned.
The NameError is modelled by `none`; the unreachable loop is not modelled
past the failing line. -/
def factor_analysis (N D : ℕ) (ys : List (List (Fin N → ℚ)))
    (Cfa0 : Matrix (Fin N) (Fin D) ℚ) (num_iters : ℕ) :
    Option (Matrix (Fin N) (Fin D) ℚ × List (List (Fin D → ℚ)) × List ℚ ×
      Matrix (Fin N) (Fin N) ℚ) :=
  let all_y := ys.flatten
  let Nobs := all_y.length
  let mu_y : Fin N → ℚ := fun j => (all_y.map fun r => r j).sum / (Nobs : ℚ)
  let ys_zero := all_y.map fun r j => r j - mu_y j
  let Cfa := Cfa0
  let psi := fa_psi_init N
  none

/-! ## Helper lemmas -/

lemma histogram_length (vals edges : List ℚ) :
    (histogram vals edges).length = edges.length - 1 := by
  simp [histogram]

lemma aRange_length (start stop step : ℚ) :
    (aRange start stop step).length = (⌈(stop - start) / step⌉).toNat := by
  unfold aRange
  rw [List.length_map, List.length_range]

lemma ceil_T_div_dt_pos {T dt : ℚ} (hT : 0 < T) (hdt : 0 < dt) :
    0 < ⌈T / dt⌉ :=
  Int.ceil_pos.mpr (div_pos hT hdt)

lemma edges_length {T dt : ℚ} (hT : 0 < T) (hdt : 0 < dt) :
    (aRange 0 (T + dt) dt).length = (⌈T / dt⌉).toNat + 1 := by
  have hstep : (T + dt - 0) / dt = T / dt + 1 := by
    field_simp
  have hceil : ⌈(T + dt - 0) / dt⌉ = ⌈T / dt⌉ + 1 := by
    rw [hstep]
    exact_mod_cast Int.ceil_add_one (T / dt)
  have hpos := ceil_T_div_dt_pos hT hdt
  rw [aRange_length, hceil, Int.toNat_add hpos.le (by norm_num)]
  rfl

lemma histogram_nil_eq_replicate (edges : List ℚ) :
    histogram [] edges = List.replicate (edges.length - 1) 0 := by
  simp only [histogram, List.countP_nil]
  induction edges.length - 1 with
  | zero => rfl
  | succ k ih => rw [List.range_succ, List.map_append, ih,
      List.replicate_succ' (n := k)]; rfl

/-- CLAIM C5: for positive T and dt, both outputs of the Click Generator (two
sided variant) and every output of the D dimensional variant have length
exactly the ceiling of T / dt, and every entry is a nonnegative integer
(counts are natural numbers in the embedding). -/
theorem claim5_click_length (T dt rate_r rate_l : ℚ) (timesR timesL : List ℚ)
    (rates : List ℚ) (times : List (List ℚ)) (hT : 0 < T) (hdt : 0 < dt) :
    (((generate_clicks T dt rate_r rate_l timesR timesL).1.length : ℤ)
        = ⌈T / dt⌉ ∧
      ((generate_clicks T dt rate_r rate_l timesR timesL).2.length : ℤ)
        = ⌈T / dt⌉ ∧
      (∀ c ∈ (generate_clicks T dt rate_r rate_l timesR timesL).1, 0 ≤ c) ∧
      (∀ c ∈ (generate_clicks T dt rate_r rate_l timesR timesL).2, 0 ≤ c)) ∧
    ∀ b ∈ generate_clicks_D rates T dt times,
      (b.length : ℤ) = ⌈T / dt⌉ ∧ ∀ c ∈ b, 0 ≤ c := by
  have hlen : ∀ vals : List ℚ,
      ((histogram vals (aRange 0 (T + dt) dt)).length : ℤ) = ⌈T / dt⌉ := by
    intro vals
    rw [histogram_length, edges_length hT hdt]
    simp [Int.toNat_of_nonneg (ceil_T_div_dt_pos hT hdt).le]
  refine ⟨⟨hlen _, hlen _, fun c _ => Nat.zero_le c, fun c _ => Nat.zero_le c⟩,
    fun b hb => ?_⟩
  simp only [generate_clicks_D, List.mem_map] at hb
  obtain ⟨ts, -, rfl⟩ := hb
  exact ⟨hlen _, fun c _ => Nat.zero_le c⟩

theorem claim5_click_length_witness :
    (0 < (1 : ℚ)) ∧ (0 < (1 / 2 : ℚ)) ∧
      ((((generate_clicks 1 (1 / 2) 20 20 [] []).1.length : ℤ) = ⌈(1 : ℚ) / (1 / 2)⌉ ∧
        ((generate_clicks 1 (1 / 2) 20 20 [] []).2.length : ℤ) = ⌈(1 : ℚ) / (1 / 2)⌉ ∧
        (∀ c ∈ (generate_clicks 1 (1 / 2) 20 20 [] []).1, 0 ≤ c) ∧
        (∀ c ∈ (generate_clicks 1 (1 / 2) 20 20 [] []).2, 0 ≤ c)) ∧
      ∀ b ∈ generate_clicks_D [20] 1 (1 / 2) [[1 / 4]],
        (b.length : ℤ) = ⌈(1 : ℚ) / (1 / 2)⌉ ∧ ∀ c ∈ b, 0 ≤ c) :=
  ⟨by norm_num, by norm_num,
    claim5_click_length 1 (1 / 2) 20 20 [] [] [20] [[1 / 4]]
      (by norm_num) (by norm_num)⟩

/-- CLAIM C6: with both rates zero, T = 1 and dt = 1/100, every admissible
random draw (the Poisson counts are almost surely zero, hence the click time
lists are empty) yields two all zero click trains of length 100. -/
theorem claim6_zero_rate (timesR timesL : List ℚ)
    (hR : poissonUniformDraw 0 1 timesR) (hL : poissonUniformDraw 0 1 timesL) :
    generate_clicks 1 (1 / 100) 0 0 timesR timesL =
      (List.replicate 100 0, List.replicate 100 0) := by
  obtain rfl : timesR = [] := hR.2 (by norm_num)
  obtain rfl : timesL = [] := hL.2 (by norm_num)
  have hceil : (⌈(1 : ℚ) / (1 / 100)⌉) = 100 := by norm_num
  have hlen : (aRange 0 (1 + 1 / 100) (1 / 100)).length = 101 := by
    rw [edges_length (by norm_num : (0 : ℚ) < 1)
      (by norm_num : (0 : ℚ) < 1 / 100), hceil]
    rfl
  show (histogram (sortQ []) (aRange 0 (1 + 1 / 100) (1 / 100)),
      histogram (sortQ []) (aRange 0 (1 + 1 / 100) (1 / 100))) = _
  rw [show sortQ [] = [] from rfl, histogram_nil_eq_replicate, hlen]

theorem claim6_zero_rate_witness :
    poissonUniformDraw 0 1 [] ∧ poissonUniformDraw 0 1 [] ∧
      generate_clicks 1 (1 / 100) 0 0 [] [] =
        (List.replicate 100 0, List.replicate 100 0) :=
  ⟨⟨by simp, fun _ => rfl⟩, ⟨by simp, fun _ => rfl⟩,
    claim6_zero_rate [] [] ⟨by simp, fun _ => rfl⟩ ⟨by simp, fun _ => rfl⟩⟩


lemma sum_range'_map (f : ℕ → ℚ) (lo : ℕ) :
    ∀ n : ℕ, ((List.range' lo n).map f).sum = ∑ i in Finset.Ico lo (lo + n), f i := by
  intro n
  induction n with
  | zero => simp
  | succ k ih =>
      rw [List.range'_concat, List.map_append, List.sum_append, ih,
        show lo + (k + 1) = lo + k + 1 from rfl,
        Finset.sum_Ico_succ_top (Nat.le_add_right lo k)]
      simp

lemma npMean_range'_map (f : ℕ → ℚ) (lo hi : ℕ) :
    npMean ((List.range' lo (hi - lo)).map f) =
      if (Finset.Ico lo hi).card = 0 then none
      else some ((∑ i in Finset.Ico lo hi, f i) / ((Finset.Ico lo hi).card : ℚ)) := by
  rw [Nat.card_Ico]
  by_cases h : hi - lo = 0
  · rw [h]
    simp [npMean]
  · have hlohi : lo ≤ hi := by omega
    have hnil : ((List.range' lo (hi - lo)).map f).isEmpty = false := by
      simp [List.isEmpty_iff, List.range'_eq_nil, h]
  -- the window is nonempty, so the mean is the quotient of the exact sum
    unfold npMean
    rw [hnil, if_neg h]
    simp only [Bool.false_eq_true, if_false]
    rw [sum_range'_map f lo (hi - lo), Nat.add_sub_cancel' hlohi,
      List.length_map, List.length_range']

/-- CLAIM C3: for a T by N series, window_size at least 1 and any in range
indices, the smoothed value at (t, n) is the mean of rows over the index range
from max(t - win, 0) (truncated natural subtraction) up to but excluding
min(t + win, T - 1), with win = (window_size - 1) / 2 rounded down; the value
is the NaN of an empty mean (`none`) exactly when that range is empty, and the
range never contains the last index T - 1. -/
theorem claim3_smooth_window (xs : ℕ → ℕ → ℚ) (T N window_size t n : ℕ)
    (hT : 1 ≤ T) (hN : 1 ≤ N) (hws : 1 ≤ window_size) (ht : t < T) (hn : n < N) :
    (smooth xs T window_size t n =
      if (Finset.Ico (t - (window_size - 1) / 2)
          (min (t + (window_size - 1) / 2) (T - 1))).card = 0 then none
      else some ((∑ i in Finset.Ico (t - (window_size - 1) / 2)
            (min (t + (window_size - 1) / 2) (T - 1)), xs i n) /
          ((Finset.Ico (t - (window_size - 1) / 2)
            (min (t + (window_size - 1) / 2) (T - 1))).card : ℚ))) ∧
    T - 1 ∉ Finset.Ico (t - (window_size - 1) / 2)
        (min (t + (window_size - 1) / 2) (T - 1)) := by
  refine ⟨?_, ?_⟩
  · exact npMean_range'_map (fun i => xs i n) (t - (window_size - 1) / 2)
      (min (t + (window_size - 1) / 2) (T - 1))
  · intro hmem
    rw [Finset.mem_Ico] at hmem
    omega

theorem claim3_smooth_window_witness :
    (1 ≤ 3 ∧ 1 ≤ 1 ∧ 1 ≤ 3 ∧ 1 < 3 ∧ 0 < 1) ∧
      ((smooth (fun i _ => (i : ℚ)) 3 3 1 0 =
        if (Finset.Ico ((1 : ℕ) - (3 - 1) / 2)
            (min (1 + (3 - 1) / 2) (3 - 1))).card = 0 then none
        else some ((∑ i in Finset.Ico ((1 : ℕ) - (3 - 1) / 2)
              (min (1 + (3 - 1) / 2) (3 - 1)), (i : ℚ)) /
            ((Finset.Ico ((1 : ℕ) - (3 - 1) / 2)
              (min (1 + (3 - 1) / 2) (3 - 1))).card : ℚ))) ∧
      (3 : ℕ) - 1 ∉ Finset.Ico ((1 : ℕ) - (3 - 1) / 2)
          (min (1 + (3 - 1) / 2) (3 - 1))) :=
  ⟨⟨by decide, by decide, by decide, by decide, by decide⟩,
    claim3_smooth_window (fun i _ => (i : ℚ)) 3 1 3 1 0
      (by decide) (by decide) (by decide) (by decide) (by decide)⟩

/-- CLAIM C7, counterexample: smoothing the constant one series with a single
row (T = 1) and the default window_size = 5 does not return the series
unchanged: every window is empty, so the entry is the NaN of an empty mean
(`none`), not the constant 1.  The claim as stated, quantified over every
constant series and every window_size, is therefore false. -/
theorem claim7_smooth_const_counterexample :
    ¬ (smooth (fun _ _ => (1 : ℚ)) 1 5 0 0 = some 1) := by
  decide

/-- CLAIM C7, amended: for T at least 2 and window_size at least 3 (so that
the half window is at least 1 and every averaging window is nonempty), the
Smoother returns a constant series unchanged. -/
theorem claim7_smooth_const (c : ℚ) (T N window_size t n : ℕ)
    (hT : 2 ≤ T) (hws : 3 ≤ window_size) (ht : t < T) (hn : n < N) :
    smooth (fun _ _ => c) T window_size t n = some c := by
  have hwin1 : 1 ≤ (window_size - 1) / 2 := by
    rw [Nat.le_div_iff_mul_le (by norm_num)]
    omega
  have hmain : smooth (fun _ _ => c) T window_size t n =
      if (Finset.Ico (t - (window_size - 1) / 2)
          (min (t + (window_size - 1) / 2) (T - 1))).card = 0 then none
      else some ((∑ _i in Finset.Ico (t - (window_size - 1) / 2)
            (min (t + (window_size - 1) / 2) (T - 1)), c) /
          ((Finset.Ico (t - (window_size - 1) / 2)
            (min (t + (window_size - 1) / 2) (T - 1))).card : ℚ)) :=
    npMean_range'_map (fun _ => c) (t - (window_size - 1) / 2)
      (min (t + (window_size - 1) / 2) (T - 1))
  rw [hmain]
  have hcard : (Finset.Ico (t - (window_size - 1) / 2)
      (min (t + (window_size - 1) / 2) (T - 1))).card ≠ 0 := by
    rw [Nat.card_Ico]
    omega
  rw [if_neg hcard, Finset.sum_const, nsmul_eq_mul]
  have hc : ((Finset.Ico (t - (window_size - 1) / 2)
      (min (t + (window_size - 1) / 2) (T - 1))).card : ℚ) ≠ 0 := by
    exact_mod_cast hcard
  rw [mul_comm, mul_div_assoc, div_self hc, mul_one]

theorem claim7_smooth_const_witness :
    (2 ≤ 2 ∧ 3 ≤ 3 ∧ 0 < 2 ∧ 0 < 1) ∧
      smooth (fun _ _ => (7 : ℚ)) 2 3 0 0 = some 7 :=
  ⟨⟨by decide, by decide, by decide, by decide⟩,
    claim7_smooth_const 7 2 1 3 0 0 (by decide) (by decide) (by decide) (by decide)⟩

lemma argsort_mem {l : List ℚ} {j : ℕ} (hj : j ∈ argsort l) : j < l.length := by
  unfold argsort at hj
  rw [List.mem_map] at hj
  obtain ⟨p, hp, rfl⟩ := hj
  have hp2 : p ∈ (List.range l.length).map fun i => (l.getD i 0, i) :=
    (List.perm_insertionSort _ _).mem_iff.mp hp
  rw [List.mem_map] at hp2
  obtain ⟨i, hi, rfl⟩ := hp2
  simpa using List.mem_range.mp hi

lemma mem_of_mem_uSorted {us : List ℚ} {x : ℚ} (hx : x ∈ uSorted us) :
    x ∈ us := by
  unfold uSorted at hx
  rw [List.mem_map] at hx
  obtain ⟨j, hj, rfl⟩ := hx
  have hjlen := argsort_mem hj
  rw [List.getD_eq_getElem _ _ hjlen]
  exact List.getElem_mem hjlen

lemma uSorted_getD_mem (us : List ℚ) {p : ℕ} (hp : p < (uSorted us).length) :
    (uSorted us).getD p 0 ∈ us := by
  refine mem_of_mem_uSorted ?_
  rw [List.getD_eq_getElem _ _ hp]
  exact List.getElem_mem hp

lemma neg_scan_empty (us : List ℚ) (h : ∀ s ∈ us, ¬ s < 0) :
    ((List.range (uSorted us).length).filter
      fun p => decide ((uSorted us).getD p 0 < 0)) = [] := by
  rw [List.filter_eq_nil_iff]
  intro p hp
  simp only [decide_eq_true_eq]
  exact h _ (uSorted_getD_mem us (List.mem_range.mp hp))

lemma pos_scan_empty (us : List ℚ) (h : ∀ s ∈ us, ¬ 0 < s) :
    ((List.range (uSorted us).length).filter
      fun p => decide (0 < (uSorted us).getD p 0)) = [] := by
  rw [List.filter_eq_nil_iff]
  intro p hp
  simp only [decide_eq_true_eq]
  exact h _ (uSorted_getD_mem us (List.mem_range.mp hp))

lemma option_bind_const_none {α β : Type} (x : Option α) :
    (x.bind fun _ => (none : Option β)) = none := by
  cases x <;> rfl

/-- CLAIM C9: whenever the evidence strengths contain no strictly negative
value, or no strictly positive value, the boundary scans of the PSTH Builder
(`np.where(u_sorted < 0)[0][-1]` and `np.where(u_sorted > 0)[0][0]`) index an
empty selection and the operation fails with an IndexError, modelled by a
`none` result, even for inputs of valid channel count 1 or 2. -/
theorem claim9_psth_scan_failure (ch : ℕ) (inputs : List (List (List ℚ)))
    (hch : ch = 1 ∨ ch = 2)
    (h : (∀ s ∈ uSums ch inputs, ¬ s < 0) ∨ (∀ s ∈ uSums ch inputs, ¬ 0 < s)) :
    plot_psths_all_idx ch inputs = none := by
  unfold plot_psths_all_idx
  rw [if_pos hch]
  rcases h with h | h
  · rw [neg_scan_empty _ h]
    rfl
  · rw [pos_scan_empty _ h]
    simp only [List.head?_nil, Option.map_none', option_bind_const_none]

theorem claim9_psth_scan_failure_witness :
    ((1 : ℕ) = 1 ∨ (1 : ℕ) = 2) ∧
      ((∀ s ∈ uSums 1 [[[1]]], ¬ s < 0) ∨ (∀ s ∈ uSums 1 [[[1]]], ¬ 0 < s)) ∧
      plot_psths_all_idx 1 [[[1]]] = none := by
  have hs : ∀ s ∈ uSums 1 [[[1]]], ¬ s < 0 := by
    intro s hs
    simp [uSums] at hs
    rw [hs]
    norm_num
  exact ⟨Or.inl rfl, Or.inl hs,
    claim9_psth_scan_failure 1 [[[1]]] (Or.inl rfl) (Or.inl hs)⟩

/-- CLAIM C2, evaluation at a failing input: three one channel trials with
evidence strengths -2, -1 and 1.  The seven bins computed by the PSTH Builder
are [[0], [], [], [], [2], [], []]: trial index 1, the trial holding the
largest strictly negative strength (sorted position `u_below_0`, which the
slice `idx_sort[:u_below_0]` excludes), appears in no bin, so the seven bins
do not partition the trial indices. -/
theorem claim2_partition_failing_input :
    plot_psths_all_idx 1 [[[-2]], [[-1]], [[1]]] =
      some [[0], [], [], [], [2], [], []] ∧
    (1 : ℕ) ∉ ([[0], [], [], [], [2], [], []] : List (List ℕ)).flatten := by
  constructor
  · have h1 : uSums 1 [[[-2]], [[-1]], [[1]]] = [-2, -1, 1] := by
      norm_num [uSums]
    have h2 : argsort [-2, -1, 1] = [0, 1, 2] := by
      norm_num [argsort, List.insertionSort, List.orderedInsert, List.range_succ]
    have h3 : uSorted [-2, -1, 1] = [-2, -1, 1] := by
      norm_num [uSorted, h2]
    unfold plot_psths_all_idx
    rw [if_pos (Or.inl rfl), h1, h3, h2]
    norm_num [List.range_succ, arraySplit, abs]
  · decide

/-- CLAIM C1 (code bug): the claim says the Factor Analysis Fitter runs
exactly num_iters EM iterations and returns a log likelihood trace of length
num_iters, but the module never imports `trange`, so every call of
`factor_analysis` raises NameError at misc.py line 70, before the first EM
iteration, and returns nothing: no run produces a log likelihood trace of any
length, let alone of length num_iters. -/
theorem claim1_fa_namerror (N D : ℕ) (ys : List (List (Fin N → ℚ)))
    (Cfa0 : Matrix (Fin N) (Fin D) ℚ) (num_iters : ℕ) :
    factor_analysis N D ys Cfa0 num_iters = none := rfl

/-- CLAIM C4 (code bug): psi is initialized to the diagonal matrix
`np.eye(N)` at misc.py line 67 (off diagonal entries zero), but the NameError
at line 70 (unimported `trange`) aborts every run before the first EM
iteration: the program never performs the per iteration diagonal residual
updates or the 1e-7 additions the claim describes, and `factor_analysis`
returns no psi at all. -/
theorem claim4_fa_psi_never_iterated (N D : ℕ) (ys : List (List (Fin N → ℚ)))
    (Cfa0 : Matrix (Fin N) (Fin D) ℚ) (num_iters : ℕ) (i j : Fin N)
    (hij : i ≠ j) :
    fa_psi_init N i j = 0 ∧ factor_analysis N D ys Cfa0 num_iters = none :=
  ⟨Matrix.one_apply_ne hij, rfl⟩

theorem claim4_fa_psi_never_iterated_witness :
    ((0 : Fin 2) ≠ 1) ∧
      (fa_psi_init 2 0 1 = 0 ∧
        factor_analysis 2 1 [] (0 : Matrix (Fin 2) (Fin 1) ℚ) 1 = none) :=
  ⟨by decide, claim4_fa_psi_never_iterated 2 1 [] 0 1 0 1 (by decide)⟩

lemma zip_self_map {α : Type} (l : List α) : l.zip l = l.map fun x => (x, x) := by
  induction l with
  | nil => rfl
  | cons a l ih => simp [List.zip_cons_cons, ih]

lemma r2Num_self (tp : List (List ℚ)) : r2Num tp tp = 0 := by
  unfold r2Num
  rw [zip_self_map, List.map_map]
  apply List.sum_eq_zero
  intro v hv
  rw [List.mem_map] at hv
  obtain ⟨b, hb, rfl⟩ := hv
  simp only [Function.comp_apply]
  split
  · apply List.sum_eq_zero
    intro w hw
    rw [List.mem_map] at hw
    obtain ⟨q, hq, rfl⟩ := hw
    have hq12 : q.1 = q.2 := by
      rw [zip_self_map, List.mem_map] at hq
      obtain ⟨z, hz, rfl⟩ := hq
      rfl
    rw [hq12, sub_self]
    ring
  · rfl

lemma r2Den_pos_of_nondegenerate {tp : List (List ℚ)} (h : nondegenerate tp) :
    0 < r2Den tp := by
  obtain ⟨b, hb, hbne, x, hx, hxm⟩ := h
  unfold r2Den
  have hterm : 0 < (b.map fun y =>
      (grandMean (tp.filter fun c => decide (0 < c.length)) - y) ^ 2).sum := by
    have hmem : (grandMean (tp.filter fun c => decide (0 < c.length)) - x) ^ 2
        ∈ b.map fun y =>
          (grandMean (tp.filter fun c => decide (0 < c.length)) - y) ^ 2 :=
      List.mem_map_of_mem _ hx
    have hpos : 0 < (grandMean (tp.filter fun c => decide (0 < c.length)) - x) ^ 2 := by
      rw [pow_two]
      exact mul_self_pos.mpr (sub_ne_zero.mpr (Ne.symm hxm))
    refine lt_of_lt_of_le hpos (List.single_le_sum ?_ _ hmem)
    intro y hy
    rw [List.mem_map] at hy
    obtain ⟨z, hz, rfl⟩ := hy
    exact sq_nonneg _
  have hifb : (if 0 < b.length then (b.map fun y =>
      (grandMean (tp.filter fun c => decide (0 < c.length)) - y) ^ 2).sum else 0)
      = (b.map fun y =>
        (grandMean (tp.filter fun c => decide (0 < c.length)) - y) ^ 2).sum :=
    if_pos (List.length_pos.mpr hbne)
  have hmemb : (if 0 < b.length then (b.map fun y =>
      (grandMean (tp.filter fun c => decide (0 < c.length)) - y) ^ 2).sum else 0)
      ∈ tp.map fun b => if 0 < b.length then (b.map fun y =>
        (grandMean (tp.filter fun c => decide (0 < c.length)) - y) ^ 2).sum else 0 :=
    List.mem_map_of_mem _ hb
  have hif_pos : 0 < (if 0 < b.length then (b.map fun y =>
      (grandMean (tp.filter fun c => decide (0 < c.length)) - y) ^ 2).sum else 0) := by
    rw [hifb]
    exact hterm
  refine lt_of_lt_of_le hif_pos (List.single_le_sum ?_ _ hmemb)
  intro v hv
  rw [List.mem_map] at hv
  obtain ⟨c, hc, rfl⟩ := hv
  split
  · apply List.sum_nonneg
    intro w hw
    rw [List.mem_map] at hw
    obtain ⟨z, hz, rfl⟩ := hw
    exact sq_nonneg _
  · exact le_refl 0

lemma r2_neuron_self {tp : List (List ℚ)} (h : nondegenerate tp) :
    r2_neuron tp tp = some 1 := by
  unfold r2_neuron
  have hden := r2Den_pos_of_nondegenerate h
  rw [if_neg (ne_of_gt hden), r2Num_self, zero_div, sub_zero]

/-- CLAIM C8: comparing a PSTH collection with itself, with every neuron non
degenerate (some nonempty bin deviates from the grand mean of the nonempty
bins, so the denominator is nonzero) and the nonempty bins of each neuron of
one common length (the stacking inside `np.mean` is then defined), yields an
R squared of exactly 1 for every neuron. -/
theorem claim8_r2_identity (psths : List (List (List ℚ)))
    (hlen : ∀ tp ∈ psths, ∀ b1 ∈ tp, ∀ b2 ∈ tp,
      b1 ≠ [] → b2 ≠ [] → b1.length = b2.length)
    (hnd : ∀ tp ∈ psths, nondegenerate tp) :
    compute_r2 psths psths = some (psths.map fun _ => some (1 : ℚ)) := by
  unfold compute_r2
  rw [if_pos rfl, zip_self_map, List.map_map]
  congr 1
  refine List.map_congr_left ?_
  intro tp htp
  exact r2_neuron_self (hnd tp htp)

theorem claim8_r2_identity_witness :
    ((∀ tp ∈ [[[(0 : ℚ), 1], [2, 3]]], ∀ b1 ∈ tp, ∀ b2 ∈ tp,
        b1 ≠ [] → b2 ≠ [] → b1.length = b2.length) ∧
      (∀ tp ∈ [[[(0 : ℚ), 1], [2, 3]]], nondegenerate tp)) ∧
      compute_r2 [[[(0 : ℚ), 1], [2, 3]]] [[[(0 : ℚ), 1], [2, 3]]]
        = some ([[[(0 : ℚ), 1], [2, 3]]].map fun _ => some (1 : ℚ)) := by
  have hlen : ∀ tp ∈ [[[(0 : ℚ), 1], [2, 3]]], ∀ b1 ∈ tp, ∀ b2 ∈ tp,
      b1 ≠ [] → b2 ≠ [] → b1.length = b2.length := by decide
  have hnd : ∀ tp ∈ [[[(0 : ℚ), 1], [2, 3]]], nondegenerate tp := by
    intro tp htp
    rw [List.mem_singleton] at htp
    subst htp
    refine ⟨[0, 1], by simp, by simp, 0, by simp, ?_⟩
    norm_num [grandMean]
  exact ⟨⟨hlen, hnd⟩, claim8_r2_identity _ hlen hnd⟩

lemma sum_map_add_nat (ps : List ℕ) (f g : ℕ → ℕ) :
    (ps.map fun i => f i + g i).sum = (ps.map f).sum + (ps.map g).sum := by
  induction ps with
  | nil => rfl
  | cons a ps ih =>
      simp only [List.map_cons, List.sum_cons, ih]
      omega

lemma sum_map_ite_countP (ps : List ℕ) (q : ℕ → Bool) :
    (ps.map fun i => if q i then 1 else 0).sum = ps.countP q := by
  induction ps with
  | nil => rfl
  | cons a ps ih =>
      rw [List.map_cons, List.sum_cons, ih, List.countP_cons]
      by_cases h : q a
      · simp [h]
        omega
      · simp [h]

lemma sum_map_countP (ps : List ℕ) (p : ℕ → ℚ → Bool) :
    ∀ l : List ℚ, (∀ x ∈ l, ps.countP (fun i => p i x) = 1) →
      (ps.map fun i => l.countP (p i)).sum = l.length := by
  intro l
  induction l with
  | nil => intro _; simp
  | cons a l ih =>
      intro h
      simp only [List.countP_cons]
      rw [sum_map_add_nat ps (fun i => List.countP (p i) l)
          (fun i => if p i a then 1 else 0),
        sum_map_ite_countP, ih (fun x hx => h x (List.mem_cons_of_mem a hx)),
        h a (List.mem_cons_self a l), List.length_cons]

lemma countP_range_eq_one {q : ℕ → Bool} {k j : ℕ} (hj : j < k)
    (hqj : q j = true) (hq : ∀ i, i < k → i ≠ j → q i = false) :
    (List.range k).countP q = 1 := by
  induction k with
  | zero => omega
  | succ m ih =>
      rw [List.range_succ, List.countP_append]
      by_cases hjm : j = m
      · subst hjm
        have h0 : (List.range j).countP q = 0 := by
          rw [List.countP_eq_zero]
          intro a ha
          have halt := List.mem_range.mp ha
          simp [hq a (by omega) (by omega)]
        rw [h0]
        simp [List.countP_cons, hqj]
      · have hjlt : j < m := by omega
        rw [ih hjlt (fun i hi hne => hq i (by omega) hne)]
        have hm : q m = false := hq m (by omega) (fun he => hjm he.symm)
        simp [List.countP_cons, hm]

lemma getD_map_range (start step : ℚ) (M i : ℕ) (h : i < M) :
    ((List.range M).map fun n : ℕ => start + (n : ℚ) * step).getD i 0
      = start + (i : ℚ) * step := by
  rw [List.getD_eq_getElem _ _ (by simpa using h)]
  simp

lemma aRange_getD {T dt : ℚ} (hT : 0 < T) (hdt : 0 < dt) {i : ℕ}
    (hi : i < (⌈T / dt⌉).toNat + 1) :
    (aRange 0 (T + dt) dt).getD i 0 = (i : ℚ) * dt := by
  have hlen := edges_length hT hdt
  rw [aRange_length] at hlen
  unfold aRange
  rw [hlen, getD_map_range 0 dt _ i hi, zero_add]

lemma histogram_sum {T dt : ℚ} (l : List ℚ) (hT : 0 < T) (hdt : 0 < dt)
    (hl : ∀ x ∈ l, 0 ≤ x ∧ x < T) :
    (histogram l (aRange 0 (T + dt) dt)).sum = l.length := by
  have hel : (aRange 0 (T + dt) dt).length = (⌈T / dt⌉).toNat + 1 :=
    edges_length hT hdt
  have hcpos := ceil_T_div_dt_pos hT hdt
  have hk1 : 1 ≤ (⌈T / dt⌉).toNat := by omega
  unfold histogram
  rw [hel, Nat.add_sub_cancel]
  apply sum_map_countP
  intro x hx
  obtain ⟨hx0, hxT⟩ := hl x hx
  have hfl0 : (0 : ℤ) ≤ ⌊x / dt⌋ := Int.floor_nonneg.mpr (div_nonneg hx0 hdt.le)
  have hjcast : (((⌊x / dt⌋).toNat : ℕ) : ℚ) = ((⌊x / dt⌋ : ℤ) : ℚ) := by
    exact_mod_cast congrArg (fun z : ℤ => (z : ℚ)) (Int.toNat_of_nonneg hfl0)
  have hjle : (((⌊x / dt⌋).toNat : ℕ) : ℚ) ≤ x / dt := by
    rw [hjcast]
    exact Int.floor_le _
  have hjlt : x / dt < (((⌊x / dt⌋).toNat : ℕ) : ℚ) + 1 := by
    rw [hjcast]
    exact Int.lt_floor_add_one _
  have hkcast : (((⌈T / dt⌉).toNat : ℕ) : ℚ) = ((⌈T / dt⌉ : ℤ) : ℚ) := by
    exact_mod_cast congrArg (fun z : ℤ => (z : ℚ)) (Int.toNat_of_nonneg hcpos.le)
  have hTk : T ≤ (((⌈T / dt⌉).toNat : ℕ) : ℚ) * dt := by
    rw [hkcast]
    have h1 : T / dt ≤ ((⌈T / dt⌉ : ℤ) : ℚ) := Int.le_ceil _
    rw [div_le_iff hdt] at h1
    exact h1
  have hjk : (⌊x / dt⌋).toNat < (⌈T / dt⌉).toNat := by
    have hq : (((⌊x / dt⌋).toNat : ℕ) : ℚ) < (((⌈T / dt⌉).toNat : ℕ) : ℚ) := by
      refine lt_of_le_of_lt hjle ?_
      rw [div_lt_iff hdt]
      exact lt_of_lt_of_le hxT hTk
    exact_mod_cast hq
  set k := (⌈T / dt⌉).toNat with hkdef
  set j := (⌊x / dt⌋).toNat with hjdef
  have h1 : (j : ℚ) * dt ≤ x := by
    rw [← le_div_iff hdt]
    exact hjle
  have h2 : x < ((j : ℚ) + 1) * dt := by
    rw [← div_lt_iff hdt]
    exact hjlt
  apply countP_range_eq_one hjk
  · unfold binPred
    rw [aRange_getD hT hdt (by omega), aRange_getD hT hdt (by omega), hel]
    by_cases hlast : j + 2 = k + 1
    · simp [h1, hlast, le_of_lt h2]
    · simp [h1, hlast, h2]
  · intro i hik hij
    unfold binPred
    rw [aRange_getD hT hdt (by omega), aRange_getD hT hdt (by omega), hel]
    rcases Nat.lt_or_ge i j with hlt | hge
    · have hle : ((i : ℚ) + 1) * dt ≤ x := by
        have hij1 : ((i : ℚ) + 1) ≤ (j : ℚ) := by exact_mod_cast hlt
        refine le_trans (mul_le_mul_of_nonneg_right hij1 hdt.le) ?_
        rw [← le_div_iff hdt]
        exact hjle
      have hne : i + 2 ≠ k + 1 := by omega
      have hnotlt : ¬ (x < ((i : ℚ) + 1) * dt) := not_lt.mpr hle
      simp [hne, hnotlt]
    · have hgt : j < i := by omega
      have hxi : x < (i : ℚ) * dt := by
        have hji : ((j : ℚ) + 1) ≤ (i : ℚ) := by exact_mod_cast hgt
        exact lt_of_lt_of_le h2 (mul_le_mul_of_nonneg_right hji hdt.le)
      have hnotle : ¬ ((i : ℚ) * dt ≤ x) := not_le.mpr hxi
      simp [hnotle]

theorem claim10_click_conservation (T dt rate_r rate_l : ℚ)
    (timesR timesL : List ℚ) (rates : List ℚ) (times : List (List ℚ))
    (hT : 0 < T) (hdt : 0 < dt)
    (hR : ∀ x ∈ timesR, 0 ≤ x ∧ x < T) (hL : ∀ x ∈ timesL, 0 ≤ x ∧ x < T)
    (hDall : ∀ ts ∈ times, ∀ x ∈ ts, 0 ≤ x ∧ x < T) :
    (generate_clicks T dt rate_r rate_l timesR timesL).1.sum = timesR.length ∧
    (generate_clicks T dt rate_r rate_l timesR timesL).2.sum = timesL.length ∧
    List.Forall₂ (fun b ts => b.sum = ts.length)
      (generate_clicks_D rates T dt times) times := by
  have key : ∀ l : List ℚ, (∀ x ∈ l, 0 ≤ x ∧ x < T) →
      (histogram (sortQ l) (aRange 0 (T + dt) dt)).sum = l.length := by
    intro l hl
    have hperm : List.Perm (sortQ l) l := List.perm_insertionSort _ l
    rw [histogram_sum (sortQ l) hT hdt fun x hx => hl x (hperm.mem_iff.mp hx)]
    exact hperm.length_eq
  refine ⟨key timesR hR, key timesL hL, ?_⟩
  unfold generate_clicks_D
  rw [List.forall₂_map_left_iff, List.forall₂_same]
  intro ts hts
  exact key ts (hDall ts hts)

theorem claim10_click_conservation_witness :
    ((0 < (1 : ℚ)) ∧ (0 < (1 / 2 : ℚ)) ∧
      (∀ x ∈ [(1 / 4 : ℚ)], 0 ≤ x ∧ x < 1) ∧
      (∀ x ∈ ([] : List ℚ), 0 ≤ x ∧ x < 1) ∧
      (∀ ts ∈ [[(3 / 4 : ℚ)]], ∀ x ∈ ts, 0 ≤ x ∧ x < 1)) ∧
      ((generate_clicks 1 (1 / 2) 20 20 [1 / 4] []).1.sum = [(1 / 4 : ℚ)].length ∧
        (generate_clicks 1 (1 / 2) 20 20 [1 / 4] []).2.sum = ([] : List ℚ).length ∧
        List.Forall₂ (fun b ts => b.sum = ts.length)
          (generate_clicks_D [20] 1 (1 / 2) [[3 / 4]]) [[(3 / 4 : ℚ)]]) := by
  have h1 : ∀ x ∈ [(1 / 4 : ℚ)], 0 ≤ x ∧ x < 1 := by
    intro x hx
    rw [List.mem_singleton] at hx
    subst hx
    norm_num
  have h2 : ∀ x ∈ ([] : List ℚ), 0 ≤ x ∧ x < 1 := by
    intro x hx
    cases hx
  have h3 : ∀ ts ∈ [[(3 / 4 : ℚ)]], ∀ x ∈ ts, 0 ≤ x ∧ x < 1 := by
    intro ts hts x hx
    rw [List.mem_singleton] at hts
    subst hts
    rw [List.mem_singleton] at hx
    subst hx
    norm_num
  exact ⟨⟨by norm_num, by norm_num, h1, h2, h3⟩,
    claim10_click_conservation 1 (1 / 2) 20 20 [1 / 4] [] [20] [[3 / 4]]
      (by norm_num) (by norm_num) h1 h2 h3⟩
